import Mathlib

/-!
Verification of the HALL coordination kernel (hall-mcp).

Shallow embedding of the lease-based file-claim manager (`HallState` in
`src/core/state.ts`), the MCP tool handlers (`hall_claim`, `hall_claim_release`
in the MCP server entry point), and the event ring buffer (`EventRing` in
`src/index.ts`).

The SQLite `claims` table (PRIMARY KEY (agent_id, file_path)) is modelled as a
list of rows; `INSERT OR REPLACE` is modelled as delete-matching-key then
append; `DELETE FROM claims WHERE ...` drops the matching rows.  `Date.now()`
is an external input, threaded through every operation as an explicit `t : Nat`
(milliseconds).  JavaScript strings are modelled as `String` for identifiers
and as `List Char` for evidence output (a JS string is a sequence of code
units; `s.length` / `s.slice(0, n)` are length / take on that sequence).
-/

namespace Hall

/-- A row of the `claims` table: `(agent_id, file_path, expires_at, created_at)`,
primary key `(agent_id, file_path)`. -/
structure ClaimRow where
  agentId : String
  filePath : String
  expiresAt : Nat
  createdAt : Nat
deriving DecidableEq

/-- The aggregate `Claim` record exposed to callers (`src/core/types.ts`). -/
structure Claim where
  agentId : String
  files : List String
  expiresAt : Nat
  createdAt : Nat
deriving DecidableEq

abbrev Table := List ClaimRow

/-- `pruneExpiredClaims`: `DELETE FROM claims WHERE expires_at <= t`
(keeps exactly the rows with `t < expires_at`). -/
def pruneExpiredClaims (t : Nat) (T : Table) : Table :=
  T.filter (fun r => decide (t < r.expiresAt))

/-- `findConflicts`: `SELECT DISTINCT agent_id FROM claims WHERE agent_id != a
AND expires_at > t AND file_path IN files`; returns `[]` when `files` is empty. -/
def findConflicts (agentId : String) (files : List String) (t : Nat) (T : Table) :
    List String :=
  if files.isEmpty then []
  else ((T.filter (fun r =>
      !(r.agentId == agentId) && decide (t < r.expiresAt) && files.contains r.filePath)).map
      (fun r => r.agentId)).dedup

/-- `INSERT OR REPLACE INTO claims` on primary key `(agent_id, file_path)`:
drop any row with the same key, append the new row. -/
def upsertRow (row : ClaimRow) (T : Table) : Table :=
  T.filter (fun r => !(r.agentId == row.agentId && r.filePath == row.filePath)) ++ [row]

/-- `HallState.createClaim(agentId, files, ttlSeconds)`: prune expired rows,
compute `expiresAt = now + max(5, ttl) * 1000`, collect conflicts; if any
conflict exists return it without inserting, else upsert one row per file
(atomically, in a transaction).  Returns `((claim, conflictsWith), newTable)`. -/
def createClaim (agentId : String) (files : List String) (ttlSeconds : Nat) (t : Nat)
    (T : Table) : (Claim × List String) × Table :=
  let T1 := pruneExpiredClaims t T
  let ttlMs := Nat.max 5 ttlSeconds * 1000
  let createdAt := t
  let expiresAt := createdAt + ttlMs
  let conflicts := findConflicts agentId files t T1
  if conflicts.isEmpty then
    ((⟨agentId, files, expiresAt, createdAt⟩, []),
      files.foldl (fun acc p => upsertRow ⟨agentId, p, expiresAt, createdAt⟩ acc) T1)
  else
    ((⟨agentId, files, expiresAt, createdAt⟩, conflicts), T1)

/-- `HallState.releaseClaims(agentId, files?)`: if `files` is given and
non-empty, `DELETE FROM claims WHERE agent_id = a AND file_path IN files`;
otherwise `DELETE FROM claims WHERE agent_id = a`.  Returns
`(info.changes, newTable)`.  Note: no expiry sweep here. -/
def releaseClaims (agentId : String) (files : Option (List String)) (T : Table) :
    Nat × Table :=
  match files with
  | some fs =>
    if fs.isEmpty then
      (T.countP (fun r => r.agentId == agentId),
       T.filter (fun r => !(r.agentId == agentId)))
    else
      (T.countP (fun r => r.agentId == agentId && fs.contains r.filePath),
       T.filter (fun r => !(r.agentId == agentId && fs.contains r.filePath)))
  | none =>
      (T.countP (fun r => r.agentId == agentId),
       T.filter (fun r => !(r.agentId == agentId)))

/-- One iteration of the row loop in `HallState.listActiveClaims`: the source
keeps an insertion-ordered `Map` keyed by `agent_id` (modelled as an
association list of aggregate claims); a row of a new agent appends a fresh
entry, a row of a seen agent pushes its path and folds max/min over
`expires_at`/`created_at`. -/
def updateEntry (r : ClaimRow) : List Claim → List Claim
  | [] => [⟨r.agentId, [r.filePath], r.expiresAt, r.createdAt⟩]
  | c :: cs =>
    if c.agentId == r.agentId then
      ⟨c.agentId, c.files ++ [r.filePath],
       Nat.max c.expiresAt r.expiresAt, Nat.min c.createdAt r.createdAt⟩ :: cs
    else
      c :: updateEntry r cs

/-- The grouping loop of `HallState.listActiveClaims` over the selected rows. -/
def groupClaims (rows : List ClaimRow) : List Claim :=
  rows.foldl (fun acc r => updateEntry r acc) []

/-- `HallState.listActiveClaims()`: prune, `SELECT ... ORDER BY created_at
DESC`, group rows by agent into aggregate claims.  Returns the claims and the
table after the prune. -/
def listActiveClaims (t : Nat) (T : Table) : List Claim × Table :=
  let T1 := pruneExpiredClaims t T
  (groupClaims (T1.insertionSort (fun a b => b.createdAt ≤ a.createdAt)), T1)

/-- `Task` record (`src/core/types.ts`). -/
structure Task where
  id : String
  title : String
  description : Option String
  createdAt : Nat
deriving DecidableEq

/-- `Intent` record (`src/core/types.ts`). -/
structure Intent where
  id : String
  taskId : String
  agentId : String
  files : List String
  boundaries : Option String
  acceptanceCriteria : Option String
  createdAt : Nat
deriving DecidableEq

/-- `Evidence` record (`src/core/types.ts`); `output` as a char sequence. -/
structure Evidence where
  id : String
  taskId : String
  agentId : String
  command : String
  output : List Char
  createdAt : Nat
deriving DecidableEq

/-- The persistent state behind `HallState`: the four SQLite tables. -/
structure HallSt where
  tasks : List Task
  intents : List Intent
  claims : Table
  evidence : List Evidence
deriving DecidableEq

/-- `MAX_OUTPUT_CHARS = 20000`. -/
def MAX_OUTPUT_CHARS : Nat := 20000

/-- `clipOutput(s)`: if `s.length <= 20000` return `s`, else
`s.slice(0, 20000) + "\n[clipped to 20000 chars]"`. -/
def clipOutput (s : List Char) : List Char :=
  if s.length ≤ MAX_OUTPUT_CHARS then s
  else s.take MAX_OUTPUT_CHARS ++ ("\n[clipped to 20000 chars]").toList

/-- Input of `HallState.attachEvidence`. -/
structure EvidenceInput where
  taskId : String
  agentId : String
  command : String
  output : List Char

/-- `HallState.attachEvidence`: throws on unknown `taskId`, else inserts a row
with `output := clipOutput(input.output)`.  `newId` stands for `nanoid(12)`. -/
def attachEvidence (tasks : List Task) (input : EvidenceInput) (evs : List Evidence)
    (newId : String) (t : Nat) : Except String (Evidence × List Evidence) :=
  if tasks.any (fun task => task.id == input.taskId) then
    let ev : Evidence :=
      ⟨newId, input.taskId, input.agentId, input.command, clipOutput input.output, t⟩
    Except.ok (ev, evs ++ [ev])
  else
    Except.error ("Unknown taskId: " ++ input.taskId)

/-- `status` counts returned by `HallState.status()`. -/
structure StatusCounts where
  tasks : Nat
  intents : Nat
  claims : Nat
  evidence : Nat
  now : Nat
deriving DecidableEq

/-- `HallState.status()`: prune expired claims, then count each table. -/
def statusOp (t : Nat) (st : HallSt) : StatusCounts × HallSt :=
  let T1 := pruneExpiredClaims t st.claims
  (⟨st.tasks.length, st.intents.length, T1.length, st.evidence.length, t⟩,
   { st with claims := T1 })

/-- Modelled from the spec: `HallState.hasIntentForFiles` is called by the
`hall_claim` handler but its implementation is not among the provided sources.
Per the spec, acquire "is only permitted if every requested path has a prior
intent recorded for that agent (else rejected with a distinguishable reason
carrying the list of files missing intent)": a file is missing intent when no
intent row of this agent lists it.  Returns `(hasIntent, missingFiles)`. -/
def hasIntentForFiles (intents : List Intent) (agentId : String) (files : List String) :
    Bool × List String :=
  let missing := files.filter (fun f =>
    !(intents.any (fun i => i.agentId == agentId && i.files.contains f)))
  (missing.isEmpty, missing)

/-- Modelled from the spec: `HallState.getAgentClaims` is called by the
`hall_claim_release` handler but its implementation is not among the provided
sources.  Per the spec, "any read or write path first deletes rows where
`expiresAt <= now`", then this read returns the calling agent's remaining
(live) claim rows.  Returns the agent's rows and the table after the sweep. -/
def getAgentClaims (agentId : String) (t : Nat) (T : Table) : List ClaimRow × Table :=
  let T1 := pruneExpiredClaims t T
  (T1.filter (fun r => r.agentId == agentId), T1)

/-- Modelled from the spec: `HallState.hasEvidenceForTask` is called by the
`hall_claim_release` handler but its implementation is not among the provided
sources.  Per the spec, release requires that "at least one evidence record"
exists for the agent (evidence need not reference the released files). -/
def hasEvidenceForTask (evidence : List Evidence) (agentId : String) : Bool :=
  evidence.any (fun e => e.agentId == agentId)

/-- The JSON shape of a `hall_claim` tool response: `status` is `"rejected"`,
`"conflict"` or `"ok"`; `isError` is present (true) only on rejection;
`reason` is `"NO_INTENT"` on rejection and empty otherwise. -/
structure ClaimResponse where
  status : String
  isError : Bool
  reason : String
  missingFiles : List String
  conflictsWith : List String
deriving DecidableEq

/-- The `hall_claim` tool handler: first the intent-enforcement check (reject
with `NO_INTENT` and the missing files), then `createClaim`; a non-empty
`conflictsWith` yields a normal (non-error) `status: "conflict"` response,
otherwise `status: "ok"`. -/
def hallClaim (agentId : String) (files : List String) (ttlSeconds : Nat) (t : Nat)
    (st : HallSt) : ClaimResponse × HallSt :=
  let check := hasIntentForFiles st.intents agentId files
  if check.1 then
    let res := createClaim agentId files ttlSeconds t st.claims
    if res.1.2.isEmpty then
      (⟨"ok", false, "", [], []⟩, { st with claims := res.2 })
    else
      (⟨"conflict", false, "", [], res.1.2⟩, { st with claims := res.2 })
  else
    (⟨"rejected", true, "NO_INTENT", check.2, []⟩, st)

/-- The JSON shape of a `hall_claim_release` tool response. -/
structure ReleaseResponse where
  status : String
  isError : Bool
  reason : String
  released : Nat
deriving DecidableEq

/-- The `hall_claim_release` tool handler: fetch the agent's active claims;
if there are any and the agent has no evidence, reject with `NO_EVIDENCE`
(leaving the leases in place); otherwise release and answer `status: "ok"`
with the number of deleted rows. -/
def hallClaimRelease (agentId : String) (files : Option (List String)) (t : Nat)
    (st : HallSt) : ReleaseResponse × HallSt :=
  let ac := getAgentClaims agentId t st.claims
  let st1 := { st with claims := ac.2 }
  if !ac.1.isEmpty && !hasEvidenceForTask st.evidence agentId then
    (⟨"rejected", true, "NO_EVIDENCE", 0⟩, st1)
  else
    let rel := releaseClaims agentId files st1.claims
    (⟨"ok", false, "", rel.1⟩, { st1 with claims := rel.2 })

/-- `EventRing.push` (`src/index.ts`): if the buffer is full
(`length >= maxSize`), `shift()` evicts the oldest entry, then `push` appends. -/
def ringPush {α : Type} (maxSize : Nat) (buf : List α) (e : α) : List α :=
  (if maxSize ≤ buf.length then buf.drop 1 else buf) ++ [e]

/-- The ring buffer contents after publishing a sequence of events into an
initially empty `EventRing` (each `broadcast` begins with `eventRing.push`);
`EventRing.toArray` returns exactly this list (oldest first). -/
def ringFromEvents {α : Type} (maxSize : Nat) (evs : List α) : List α :=
  evs.foldl (ringPush maxSize) []

/-- One step of the lease table under the four lease operations: the table
effect of `createClaim`, `releaseClaims`, `listActiveClaims` and `status`
(the latter two touch the table only through the expiry sweep). -/
inductive StepTable : Table → Table → Prop
  | create (a : String) (files : List String) (ttl t : Nat) {T : Table} :
      StepTable T (createClaim a files ttl t T).2
  | release (a : String) (files : Option (List String)) {T : Table} :
      StepTable T (releaseClaims a files T).2
  | listA (t : Nat) {T : Table} : StepTable T (listActiveClaims t T).2
  | statusA (t : Nat) {T : Table} : StepTable T (pruneExpiredClaims t T)

/-- Lease tables reachable from the empty table by the lease operations. -/
inductive ReachableTable : Table → Prop
  | empty : ReachableTable []
  | step {T T' : Table} : ReachableTable T → StepTable T T' → ReachableTable T'

/-! ### Basic characterizations of the lease-table operations -/

theorem mem_pruneExpiredClaims {t : Nat} {T : Table} {r : ClaimRow} :
    r ∈ pruneExpiredClaims t T ↔ r ∈ T ∧ t < r.expiresAt := by
  simp [pruneExpiredClaims]

theorem mem_findConflicts {a : String} {files : List String} {t : Nat} {T : Table}
    {x : String} :
    x ∈ findConflicts a files t T ↔
      ∃ r ∈ T, r.agentId = x ∧ x ≠ a ∧ t < r.expiresAt ∧ r.filePath ∈ files := by
  by_cases hf : files.isEmpty
  · have : files = [] := by simpa using hf
    subst this
    simp [findConflicts]
  · simp only [findConflicts, if_neg hf, List.mem_dedup, List.mem_map, List.mem_filter]
    constructor
    · rintro ⟨r, ⟨hr, hpred⟩, rfl⟩
      simp only [Bool.and_eq_true, Bool.not_eq_true', beq_eq_false_iff_ne,
        decide_eq_true_eq, List.elem_iff] at hpred
      exact ⟨r, hr, rfl, hpred.1.1, hpred.1.2, hpred.2⟩
    · rintro ⟨r, hr, rfl, hne, hlive, hmem⟩
      refine ⟨r, ⟨hr, ?_⟩, rfl⟩
      simp only [Bool.and_eq_true, Bool.not_eq_true', beq_eq_false_iff_ne,
        decide_eq_true_eq, List.elem_iff]
      exact ⟨⟨hne, hlive⟩, hmem⟩

theorem findConflicts_eq_nil_imp {a : String} {files : List String} {t : Nat} {T : Table}
    (h : findConflicts a files t T = []) :
    ∀ r ∈ T, r.filePath ∈ files → t < r.expiresAt → r.agentId = a := by
  intro r hr hp he
  by_contra hne
  have : r.agentId ∈ findConflicts a files t T :=
    mem_findConflicts.mpr ⟨r, hr, rfl, hne, he, hp⟩
  simp [h] at this

theorem mem_upsertRow {row r : ClaimRow} {T : Table} :
    r ∈ upsertRow row T ↔
      (r ∈ T ∧ ¬(r.agentId = row.agentId ∧ r.filePath = row.filePath)) ∨ r = row := by
  simp only [upsertRow, List.mem_append, List.mem_filter, List.mem_singleton,
    Bool.not_eq_true', Bool.and_eq_false_iff, beq_eq_false_iff_ne, ne_eq, not_and]
  tauto

theorem mem_foldl_upsert {a : String} {e c : Nat} :
    ∀ (fs : List String) (acc : Table) (r : ClaimRow),
      r ∈ fs.foldl (fun acc p => upsertRow ⟨a, p, e, c⟩ acc) acc →
      r ∈ acc ∨ (r.agentId = a ∧ r.expiresAt = e ∧ r.createdAt = c) := by
  intro fs
  induction fs with
  | nil => intro acc r h; exact Or.inl h
  | cons p ps ih =>
    intro acc r h
    simp only [List.foldl_cons] at h
    rcases ih _ r h with h' | h'
    · rcases mem_upsertRow.mp h' with ⟨hr, _⟩ | rfl
      · exact Or.inl hr
      · exact Or.inr ⟨rfl, rfl, rfl⟩
    · exact Or.inr h'

/-! ### C2: all-or-nothing acquisition -/

/-- C2: if `createClaim` reports any conflict, the resulting table is exactly
the table after the initial expired-row sweep — no lease row is inserted or
updated for any requested path, and the only state change is the sweep
(a row survives the call iff it was present and unexpired). -/
theorem C2_all_or_nothing (a : String) (files : List String) (ttl t : Nat) (T : Table)
    (h : (createClaim a files ttl t T).1.2 ≠ []) :
    (createClaim a files ttl t T).2 = pruneExpiredClaims t T ∧
    (∀ r : ClaimRow, r ∈ (createClaim a files ttl t T).2 ↔ r ∈ T ∧ t < r.expiresAt) := by
  by_cases hc : (findConflicts a files t (pruneExpiredClaims t T)).isEmpty
  · exfalso
    apply h
    simp [createClaim, hc]
  · constructor
    · simp [createClaim, hc]
    · intro r
      simp [createClaim, hc, mem_pruneExpiredClaims]

theorem C2_all_or_nothing_witness :
    (createClaim "A" ["p"] 900 0 [⟨"B", "p", 100, 0⟩]).1.2 ≠ [] ∧
    (createClaim "A" ["p"] 900 0 [⟨"B", "p", 100, 0⟩]).2 =
      pruneExpiredClaims 0 [⟨"B", "p", 100, 0⟩] :=
  ⟨by decide, (C2_all_or_nothing "A" ["p"] 900 0 [⟨"B", "p", 100, 0⟩] (by decide)).1⟩

/-! ### C4: lazy expiry sweep -/

/-- C4 counterexample: `releaseClaims` performs no expiry sweep.  At
`now = 10` the row `("A", "p")` with `expires_at = 5 <= 10` is expired, yet a
`releaseClaims("B")` call leaves it in the table untouched, refuting the claim
that every lease-table operation begins by deleting all expired rows. -/
theorem C4_counterexample :
    (releaseClaims "B" none [⟨"A", "p", 5, 0⟩]).2 = [⟨"A", "p", 5, 0⟩] ∧
    (⟨"A", "p", 5, 0⟩ : ClaimRow).expiresAt ≤ 10 := by decide

/-- C4 (amended): `createClaim`, `listActiveClaims` and `status` each begin by
deleting all lease rows with `expires_at <= now` (so every row they leave
behind is live at `now`), but `releaseClaims` performs no expiry sweep — it
deletes only the rows it targets, and every row of any other agent survives,
expired or not. -/
theorem C4_amended_sweep :
    (∀ (a : String) (files : List String) (ttl t : Nat) (T : Table),
      ∀ r ∈ (createClaim a files ttl t T).2, t < r.expiresAt) ∧
    (∀ (t : Nat) (T : Table), (listActiveClaims t T).2 = pruneExpiredClaims t T) ∧
    (∀ (t : Nat) (st : HallSt), (statusOp t st).2.claims = pruneExpiredClaims t st.claims) ∧
    (∀ (a : String) (files : Option (List String)) (T : Table),
      ∀ r ∈ T, r.agentId ≠ a → r ∈ (releaseClaims a files T).2) := by
  refine ⟨?_, fun t T => rfl, fun t st => rfl, ?_⟩
  · intro a files ttl t T r hr
    by_cases hc : (findConflicts a files t (pruneExpiredClaims t T)).isEmpty
    · have hr' : r ∈ files.foldl
          (fun acc p => upsertRow ⟨a, p, t + Nat.max 5 ttl * 1000, t⟩ acc)
          (pruneExpiredClaims t T) := by
        simpa [createClaim, hc] using hr
      rcases mem_foldl_upsert files _ r hr' with h' | h'
      · exact (mem_pruneExpiredClaims.mp h').2
      · rw [h'.2.1]
        have h5 : 5 ≤ Nat.max 5 ttl := Nat.le_max_left _ _
        omega
    · have hr' : r ∈ pruneExpiredClaims t T := by
        simpa [createClaim, hc] using hr
      exact (mem_pruneExpiredClaims.mp hr').2
  · intro a files T r hr hne
    have hb : (r.agentId == a) = false := by simpa using hne
    cases files with
    | none =>
      refine List.mem_filter.mpr ⟨hr, ?_⟩
      simp [hb]
    | some fs =>
      by_cases hfs : fs.isEmpty
      · simp only [releaseClaims, hfs, if_pos]
        refine List.mem_filter.mpr ⟨hr, ?_⟩
        simp [hb]
      · simp only [releaseClaims, if_neg hfs]
        refine List.mem_filter.mpr ⟨hr, ?_⟩
        simp [hb]

theorem C4_amended_sweep_witness :
    (0 : Nat) < (⟨"A", "p", 900000, 0⟩ : ClaimRow).expiresAt ∧
    (⟨"A", "p", 5, 0⟩ : ClaimRow) ∈ (releaseClaims "B" none [⟨"A", "p", 5, 0⟩]).2 :=
  ⟨C4_amended_sweep.1 "A" ["p"] 900 0 [] ⟨"A", "p", 900000, 0⟩ (by decide),
   C4_amended_sweep.2.2.2 "B" none [⟨"A", "p", 5, 0⟩] ⟨"A", "p", 5, 0⟩ (by decide)
     (by decide)⟩

/-! ### C6: evidence output truncation -/

/-- C6: output of at most 20000 characters is stored verbatim; longer output
is stored as exactly its first 20000 characters followed by a newline and the
marker `[clipped to 20000 chars]`; `attachEvidence` always stores
`clipOutput` of its input (the cap is the fixed constant `MAX_OUTPUT_CHARS`,
not a per-call parameter). -/
theorem C6_output_truncation :
    (∀ s : List Char, s.length ≤ 20000 → clipOutput s = s) ∧
    (∀ s : List Char, 20000 < s.length →
      clipOutput s = s.take 20000 ++ ('\n' :: "[clipped to 20000 chars]".toList)) ∧
    (∀ (tasks : List Task) (input : EvidenceInput) (evs : List Evidence)
        (newId : String) (t : Nat) (ev : Evidence) (evs' : List Evidence),
      attachEvidence tasks input evs newId t = Except.ok (ev, evs') →
      ev.output = clipOutput input.output ∧ evs' = evs ++ [ev]) := by
  refine ⟨?_, ?_, ?_⟩
  · intro s h
    simp [clipOutput, MAX_OUTPUT_CHARS, h]
  · intro s h
    have hn : ¬ s.length ≤ MAX_OUTPUT_CHARS := by
      simp only [MAX_OUTPUT_CHARS]
      omega
    simp only [clipOutput, if_neg hn]
    rfl
  · intro tasks input evs newId t ev evs' h
    by_cases hc : (tasks.any fun task => task.id == input.taskId) = true
    · rw [attachEvidence, if_pos hc] at h
      simp only [Except.ok.injEq, Prod.mk.injEq] at h
      obtain ⟨rfl, rfl⟩ := h
      exact ⟨rfl, rfl⟩
    · rw [attachEvidence, if_neg hc] at h
      exact absurd h (by simp)

theorem C6_output_truncation_witness :
    clipOutput "ok".toList = "ok".toList ∧
    clipOutput (List.replicate 20001 'x') =
      (List.replicate 20001 'x').take 20000 ++ ('\n' :: "[clipped to 20000 chars]".toList) ∧
    (⟨"id1", "tsk1", "A", "cmd", clipOutput "out".toList, 7⟩ : Evidence).output =
      clipOutput "out".toList :=
  ⟨C6_output_truncation.1 "ok".toList (by decide),
   C6_output_truncation.2.1 (List.replicate 20001 'x')
     (by rw [List.length_replicate]; omega),
   (C6_output_truncation.2.2 [⟨"tsk1", "t", none, 0⟩] ⟨"tsk1", "A", "cmd", "out".toList⟩
      [] "id1" 7 ⟨"id1", "tsk1", "A", "cmd", clipOutput "out".toList, 7⟩
      [⟨"id1", "tsk1", "A", "cmd", clipOutput "out".toList, 7⟩] rfl).1⟩

/-! ### C9: event ring buffer -/

theorem ringFromEvents_suffix {α : Type} (evs : List α) :
    ringFromEvents 500 evs = evs.drop (evs.length - 500) := by
  induction evs using List.reverseRecOn with
  | nil => simp [ringFromEvents]
  | append_singleton evs e ih =>
    have hstep : ringFromEvents 500 (evs ++ [e]) =
        ringPush 500 (ringFromEvents 500 evs) e := by
      simp [ringFromEvents, List.foldl_append]
    rw [hstep, ih]
    unfold ringPush
    rcases le_or_lt 500 evs.length with h | h
    · have hlen : (evs.drop (evs.length - 500)).length = 500 := by
        simp only [List.length_drop]
        omega
      rw [if_pos (le_of_eq hlen.symm), List.drop_drop]
      have h1 : evs.length - 500 + 1 = evs.length + 1 - 500 := by omega
      rw [h1]
      have h2 : evs.length + 1 - 500 ≤ evs.length := by omega
      rw [List.length_append, List.length_singleton,
        List.drop_append_eq_append_drop, Nat.sub_eq_zero_of_le h2, List.drop_zero]
    · have hlen : ¬ 500 ≤ (evs.drop (evs.length - 500)).length := by
        simp only [List.length_drop]
        omega
      rw [if_neg hlen]
      have h0 : evs.length - 500 = 0 := Nat.sub_eq_zero_of_le (le_of_lt h)
      have h0' : (evs ++ [e]).length - 500 = 0 := by
        simp only [List.length_append, List.length_singleton]
        omega
      rw [h0, h0', List.drop_zero, List.drop_zero]

/-- C9: publishing any sequence of events into the capacity-500 `EventRing`
leaves exactly the last 500 events (in arrival order, oldest first — this is
what `toArray`, and hence `/api/events`, returns), so the buffer never holds
more than 500 events, and a push onto a full buffer evicts exactly the oldest
buffered event. -/
theorem C9_event_ring {α : Type} (evs : List α) :
    ringFromEvents 500 evs = evs.drop (evs.length - 500) ∧
    (ringFromEvents 500 evs).length ≤ 500 ∧
    (∀ (buf : List α) (e : α), buf.length = 500 →
      ringPush 500 buf e = buf.drop 1 ++ [e]) := by
  refine ⟨ringFromEvents_suffix evs, ?_, ?_⟩
  · rw [ringFromEvents_suffix]
    simp only [List.length_drop]
    omega
  · intro buf e h
    unfold ringPush
    rw [if_pos (le_of_eq h.symm)]

theorem C9_event_ring_witness :
    ringFromEvents 500 [1, 2, 3] = [1, 2, 3] ∧
    ringPush 500 (List.replicate 500 (0 : Nat)) 7 =
      (List.replicate 500 (0 : Nat)).drop 1 ++ [7] :=
  ⟨(C9_event_ring [1, 2, 3]).1.trans rfl,
   (C9_event_ring ([] : List Nat)).2.2 (List.replicate 500 0) 7 (by rw [List.length_replicate])⟩

/-! ### C10: release without active claims bypasses the evidence gate -/

/-- C10: if the agent holds zero active (live) claims, `hall_claim_release`
answers `status "ok"` with `released = 0` and no error, regardless of the
evidence table — the NO_EVIDENCE precondition is only evaluated when the
agent holds at least one active claim. -/
theorem C10_release_without_claims (st : HallSt) (a : String)
    (files : Option (List String)) (t : Nat)
    (h : (getAgentClaims a t st.claims).1 = []) :
    (hallClaimRelease a files t st).1 = ⟨"ok", false, "", 0⟩ := by
  have hagent : ∀ r ∈ pruneExpiredClaims t st.claims, (r.agentId == a) = false := by
    intro r hr
    cases hx : (r.agentId == a) with
    | false => rfl
    | true =>
      exfalso
      have h1 : r ∈ (pruneExpiredClaims t st.claims).filter (fun r => r.agentId == a) :=
        List.mem_filter.mpr ⟨hr, hx⟩
      have h2 : (pruneExpiredClaims t st.claims).filter (fun r => r.agentId == a) = [] := h
      rw [h2] at h1
      exact absurd h1 (List.not_mem_nil r)
  have hcount : ∀ (p : ClaimRow → Bool),
      (∀ r, p r = true → (r.agentId == a) = true) →
      (pruneExpiredClaims t st.claims).countP p = 0 := by
    intro p hp
    rw [List.countP_eq_zero]
    intro r hr hpr
    have hba := hp r hpr
    rw [hagent r hr] at hba
    exact Bool.false_ne_true hba
  have hrel : (releaseClaims a files (pruneExpiredClaims t st.claims)).1 = 0 := by
    cases files with
    | none => exact hcount _ (fun r hpr => hpr)
    | some fs =>
      by_cases hfs : fs.isEmpty = true
      · simp only [releaseClaims]
        rw [if_pos hfs]
        exact hcount _ (fun r hpr => hpr)
      · simp only [releaseClaims]
        rw [if_neg hfs]
        exact hcount _ (fun r hpr => ((Bool.and_eq_true _ _).mp hpr).1)
  have hempty : (getAgentClaims a t st.claims).1.isEmpty = true := by
    rw [h]
    rfl
  have hcondF : (!(getAgentClaims a t st.claims).1.isEmpty &&
      !hasEvidenceForTask st.evidence a) = false := by
    rw [hempty]
    rfl
  simp only [hallClaimRelease]
  rw [if_neg (by simp [hcondF])]
  exact congrArg (fun n => ReleaseResponse.mk "ok" false "" n) hrel

theorem C10_release_without_claims_witness :
    (getAgentClaims "A" 10 [⟨"A", "p", 5, 0⟩]).1 = [] ∧
    (hallClaimRelease "A" none 10 ⟨[], [], [⟨"A", "p", 5, 0⟩], []⟩).1 =
      ⟨"ok", false, "", 0⟩ :=
  ⟨by decide,
   C10_release_without_claims ⟨[], [], [⟨"A", "p", 5, 0⟩], []⟩ "A" none 10 (by decide)⟩

/-! ### C3: workflow ordering -/

/-- C3 counterexample: with an empty store, agent "A" has no evidence recorded,
yet `hall_claim_release` answers a normal `status "ok"` result (released 0)
instead of the claimed NO_EVIDENCE precondition rejection — the evidence gate
is skipped when the agent holds no active claims. -/
theorem C3_counterexample :
    (hallClaimRelease "A" none 0 ⟨[], [], [], []⟩).1 = ⟨"ok", false, "", 0⟩ ∧
    (⟨[], [], [], []⟩ : HallSt).evidence = [] := by decide

/-- C3 (amended): `hall_claim` fails with an `isError` rejection of reason
NO_INTENT — `missingFiles` being exactly the requested files lacking a prior
intent by the same agent — whenever any requested file lacks such an intent
(the state is left unchanged); and `hall_claim_release` fails with an
`isError` rejection of reason NO_EVIDENCE whenever the calling agent holds at
least one live claim AND has no evidence recorded (the lease table keeps all
rows surviving the sweep: the leases remain held). -/
theorem C3_amended_workflow_ordering :
    (∀ (st : HallSt) (a : String) (files : List String) (ttl t : Nat),
      (∃ f ∈ files, ∀ i ∈ st.intents, i.agentId = a → f ∉ i.files) →
      (hallClaim a files ttl t st).1.status = "rejected" ∧
      (hallClaim a files ttl t st).1.isError = true ∧
      (hallClaim a files ttl t st).1.reason = "NO_INTENT" ∧
      (∀ g, g ∈ (hallClaim a files ttl t st).1.missingFiles ↔
        (g ∈ files ∧ ∀ i ∈ st.intents, i.agentId = a → g ∉ i.files)) ∧
      (hallClaim a files ttl t st).2 = st) ∧
    (∀ (st : HallSt) (a : String) (files : Option (List String)) (t : Nat),
      (∃ r ∈ st.claims, r.agentId = a ∧ t < r.expiresAt) →
      (∀ e ∈ st.evidence, e.agentId ≠ a) →
      (hallClaimRelease a files t st).1.status = "rejected" ∧
      (hallClaimRelease a files t st).1.isError = true ∧
      (hallClaimRelease a files t st).1.reason = "NO_EVIDENCE" ∧
      (hallClaimRelease a files t st).2.claims = pruneExpiredClaims t st.claims) := by
  constructor
  · intro st a files ttl t hmiss
    obtain ⟨f, hf, hno⟩ := hmiss
    have hmem_missing : ∀ g, g ∈ (hasIntentForFiles st.intents a files).2 ↔
        (g ∈ files ∧ ∀ i ∈ st.intents, i.agentId = a → g ∉ i.files) := by
      intro g
      simp only [hasIntentForFiles, List.mem_filter, Bool.not_eq_true',
        List.any_eq_false, Bool.and_eq_true, beq_iff_eq, List.elem_iff, not_and]
    have hne : (hasIntentForFiles st.intents a files).2 ≠ [] := by
      intro h0
      have hh := (hmem_missing f).mpr ⟨hf, hno⟩
      rw [h0] at hh
      exact absurd hh (List.not_mem_nil f)
    have hfalse : (hasIntentForFiles st.intents a files).1 = false := by
      have : (hasIntentForFiles st.intents a files).2.isEmpty = false := by
        cases hx : (hasIntentForFiles st.intents a files).2 with
        | nil => exact absurd hx hne
        | cons y ys => rfl
      exact this
    have hresp : hallClaim a files ttl t st =
        (⟨"rejected", true, "NO_INTENT", (hasIntentForFiles st.intents a files).2, []⟩,
          st) := by
      simp [hallClaim, hfalse]
    refine ⟨by rw [hresp], by rw [hresp], by rw [hresp], ?_, by rw [hresp]⟩
    intro g
    rw [hresp]
    exact hmem_missing g
  · intro st a files t hlive hnoev
    obtain ⟨r, hr, hra, hrl⟩ := hlive
    have hmem : r ∈ (getAgentClaims a t st.claims).1 := by
      have : r ∈ (pruneExpiredClaims t st.claims).filter (fun s => s.agentId == a) :=
        List.mem_filter.mpr ⟨mem_pruneExpiredClaims.mpr ⟨hr, hrl⟩, by simp [hra]⟩
      exact this
    have h1 : (getAgentClaims a t st.claims).1.isEmpty = false := by
      cases hx : (getAgentClaims a t st.claims).1 with
      | nil => rw [hx] at hmem; exact absurd hmem (List.not_mem_nil r)
      | cons y ys => rfl
    have h2 : hasEvidenceForTask st.evidence a = false := by
      simp only [hasEvidenceForTask, List.any_eq_false, beq_iff_eq]
      exact fun e he => hnoev e he
    have hcond : (!(getAgentClaims a t st.claims).1.isEmpty &&
        !hasEvidenceForTask st.evidence a) = true := by
      rw [h1, h2]
      rfl
    have hresp : hallClaimRelease a files t st =
        (⟨"rejected", true, "NO_EVIDENCE", 0⟩,
          { st with claims := pruneExpiredClaims t st.claims }) := by
      simp only [hallClaimRelease]
      rw [if_pos hcond]
      rfl
    exact ⟨by rw [hresp], by rw [hresp], by rw [hresp], by rw [hresp]⟩

theorem C3_amended_workflow_ordering_witness :
    (hallClaim "A" ["p"] 900 0 ⟨[], [], [], []⟩).1.status = "rejected" ∧
    (hallClaimRelease "A" none 0 ⟨[], [], [⟨"A", "p", 100, 0⟩], []⟩).1.reason =
      "NO_EVIDENCE" :=
  ⟨(C3_amended_workflow_ordering.1 ⟨[], [], [], []⟩ "A" ["p"] 900 0 (by decide)).1,
   (C3_amended_workflow_ordering.2 ⟨[], [], [⟨"A", "p", 100, 0⟩], []⟩ "A" none 0
     (by decide) (by decide)).2.2.1⟩

/-! ### C7: conflict is data, not an error -/

/-- C7 counterexample: path "p" is covered by a live lease of agent "B"
(`expires_at = 100 > now = 0`), but the caller "A" has posted no intent, so
`hall_claim` returns an `isError` NO_INTENT rejection rather than the claimed
normal non-error 'conflict' result. -/
theorem C7_counterexample :
    (hallClaim "A" ["p"] 900 0 ⟨[], [], [⟨"B", "p", 100, 0⟩], []⟩).1.status =
      "rejected" ∧
    (hallClaim "A" ["p"] 900 0 ⟨[], [], [⟨"B", "p", 100, 0⟩], []⟩).1.isError = true ∧
    (∃ r ∈ (⟨[], [], [⟨"B", "p", 100, 0⟩], []⟩ : HallSt).claims,
      r.agentId ≠ "A" ∧ 0 < r.expiresAt ∧ r.filePath ∈ ["p"]) := by decide

/-- C7 (amended): provided every requested file has a prior intent from the
caller, when some requested path is covered by a live lease of a different
agent, `hall_claim` returns a normal non-error result with status "conflict"
whose `conflictsWith` is exactly (without duplicates) the set of agent ids,
other than the caller, holding live leases on the requested paths. -/
theorem C7_amended_conflict_is_data (st : HallSt) (a : String) (files : List String)
    (ttl t : Nat)
    (hint : (hasIntentForFiles st.intents a files).1 = true)
    (hconf : ∃ r ∈ st.claims, r.agentId ≠ a ∧ t < r.expiresAt ∧ r.filePath ∈ files) :
    (hallClaim a files ttl t st).1.status = "conflict" ∧
    (hallClaim a files ttl t st).1.isError = false ∧
    (hallClaim a files ttl t st).1.conflictsWith.Nodup ∧
    (∀ x, x ∈ (hallClaim a files ttl t st).1.conflictsWith ↔
      (x ≠ a ∧ ∃ r ∈ st.claims, r.agentId = x ∧ t < r.expiresAt ∧ r.filePath ∈ files)) := by
  obtain ⟨r0, hr0, hne0, hl0, hp0⟩ := hconf
  have hfne : files.isEmpty = false := by
    cases hx : files with
    | nil => rw [hx] at hp0; exact absurd hp0 (List.not_mem_nil _)
    | cons y ys => rfl
  have hx0 : r0.agentId ∈ findConflicts a files t (pruneExpiredClaims t st.claims) :=
    mem_findConflicts.mpr ⟨r0, mem_pruneExpiredClaims.mpr ⟨hr0, hl0⟩, rfl, hne0, hl0, hp0⟩
  have hcne : (findConflicts a files t (pruneExpiredClaims t st.claims)).isEmpty = false := by
    cases hx : findConflicts a files t (pruneExpiredClaims t st.claims) with
    | nil => rw [hx] at hx0; exact absurd hx0 (List.not_mem_nil _)
    | cons y ys => rfl
  have hcw : (hallClaim a files ttl t st).1 =
      ⟨"conflict", false, "", [],
        findConflicts a files t (pruneExpiredClaims t st.claims)⟩ := by
    simp [hallClaim, hint, createClaim, hcne]
  refine ⟨by rw [hcw], by rw [hcw], ?_, ?_⟩
  · rw [hcw]
    simp only [findConflicts, hfne]
    rw [if_neg (by simp [hfne])]
    exact List.nodup_dedup _
  · intro x
    rw [hcw]
    simp only [mem_findConflicts, mem_pruneExpiredClaims]
    constructor
    · rintro ⟨r, ⟨hr, hl⟩, rfl, hne, hl2, hp⟩
      exact ⟨hne, r, hr, rfl, hl, hp⟩
    · rintro ⟨hne, r, hr, rfl, hl, hp⟩
      exact ⟨r, ⟨hr, hl⟩, rfl, hne, hl, hp⟩

theorem C7_amended_conflict_is_data_witness :
    (hasIntentForFiles [⟨"i1", "t1", "A", ["p"], none, none, 0⟩] "A" ["p"]).1 = true ∧
    (hallClaim "A" ["p"] 900 0
      ⟨[], [⟨"i1", "t1", "A", ["p"], none, none, 0⟩], [⟨"B", "p", 100, 0⟩], []⟩).1.status =
      "conflict" :=
  ⟨by decide,
   (C7_amended_conflict_is_data
     ⟨[], [⟨"i1", "t1", "A", ["p"], none, none, 0⟩], [⟨"B", "p", 100, 0⟩], []⟩
     "A" ["p"] 900 0 (by decide) (by decide)).1⟩

/-! ### C1/C5: the per-path uniqueness invariant of reachable lease tables -/

/-- No two rows of the table share a file path (this is the inductive
invariant behind mutual exclusion: it holds in every reachable table). -/
def PathsDistinct (T : Table) : Prop :=
  T.Pairwise (fun r s => r.filePath ≠ s.filePath)

theorem PathsDistinct.filter {T : Table} (p : ClaimRow → Bool) (h : PathsDistinct T) :
    PathsDistinct (T.filter p) :=
  List.Pairwise.sublist (List.filter_sublist T) h

theorem foldl_upsert_invariant (a : String) (e c : Nat) (files : List String) :
    ∀ (fs : List String) (acc : Table),
      (∀ p ∈ fs, p ∈ files) →
      PathsDistinct acc →
      (∀ r ∈ acc, r.filePath ∈ files → r.agentId = a) →
      PathsDistinct (fs.foldl (fun acc p => upsertRow ⟨a, p, e, c⟩ acc) acc) ∧
      (∀ r ∈ fs.foldl (fun acc p => upsertRow ⟨a, p, e, c⟩ acc) acc,
        r.filePath ∈ files → r.agentId = a) := by
  intro fs
  induction fs with
  | nil =>
    intro acc _ h1 h2
    exact ⟨h1, h2⟩
  | cons p ps ih =>
    intro acc hsub h1 h2
    simp only [List.foldl_cons]
    have hpfiles : p ∈ files := hsub p (List.mem_cons_self _ _)
    apply ih
    · intro q hq
      exact hsub q (List.mem_cons_of_mem _ hq)
    · unfold upsertRow PathsDistinct
      rw [List.pairwise_append]
      refine ⟨PathsDistinct.filter _ h1, List.pairwise_singleton _ _, ?_⟩
      intro s hs z hz
      rw [List.mem_singleton] at hz
      subst hz
      have hs' := List.mem_filter.mp hs
      intro heq
      have hag : s.agentId = a := h2 s hs'.1 (by rw [heq]; exact hpfiles)
      have hb := hs'.2
      simp [hag, heq] at hb
    · intro r hr hrf
      rcases mem_upsertRow.mp hr with ⟨hin, _⟩ | rfl
      · exact h2 r hin hrf
      · rfl

theorem createClaim_paths_distinct (a : String) (files : List String) (ttl t : Nat)
    (T : Table) (h : PathsDistinct T) : PathsDistinct (createClaim a files ttl t T).2 := by
  by_cases hc : (findConflicts a files t (pruneExpiredClaims t T)).isEmpty = true
  · have hT1 : PathsDistinct (pruneExpiredClaims t T) := PathsDistinct.filter _ h
    have hnil : findConflicts a files t (pruneExpiredClaims t T) = [] := by
      cases hx : findConflicts a files t (pruneExpiredClaims t T) with
      | nil => rfl
      | cons y ys =>
        rw [hx] at hc
        exact absurd hc (by simp)
    have hprop : ∀ r ∈ pruneExpiredClaims t T, r.filePath ∈ files → r.agentId = a :=
      fun r hr hp =>
        findConflicts_eq_nil_imp hnil r hr hp (mem_pruneExpiredClaims.mp hr).2
    have hfold := foldl_upsert_invariant a (t + Nat.max 5 ttl * 1000) t files files
      (pruneExpiredClaims t T) (fun p hp => hp) hT1 hprop
    have htab : (createClaim a files ttl t T).2 =
        files.foldl (fun acc p => upsertRow ⟨a, p, t + Nat.max 5 ttl * 1000, t⟩ acc)
          (pruneExpiredClaims t T) := by
      simp [createClaim, hc]
    rw [htab]
    exact hfold.1
  · have htab : (createClaim a files ttl t T).2 = pruneExpiredClaims t T := by
      simp [createClaim, hc]
    rw [htab]
    exact PathsDistinct.filter _ h

theorem releaseClaims_paths_distinct (a : String) (files : Option (List String))
    (T : Table) (h : PathsDistinct T) : PathsDistinct (releaseClaims a files T).2 := by
  cases files with
  | none => exact PathsDistinct.filter _ h
  | some fs =>
    simp only [releaseClaims]
    split
    · exact PathsDistinct.filter _ h
    · exact PathsDistinct.filter _ h

theorem reachable_paths_distinct {T : Table} (h : ReachableTable T) : PathsDistinct T := by
  induction h with
  | empty => exact List.Pairwise.nil
  | step hR hS ih =>
    cases hS with
    | create a files ttl t => exact createClaim_paths_distinct a files ttl t _ ih
    | release a files => exact releaseClaims_paths_distinct a files _ ih
    | listA t => exact PathsDistinct.filter _ ih
    | statusA t => exact PathsDistinct.filter _ ih

theorem pathsDistinct_unique {T : Table} (h : PathsDistinct T) :
    ∀ r1 ∈ T, ∀ r2 ∈ T, r1.filePath = r2.filePath → r1 = r2 := by
  induction T with
  | nil =>
    intro r1 h1
    exact absurd h1 (List.not_mem_nil _)
  | cons x l ih =>
    intro r1 h1 r2 h2 heq
    have hx := List.pairwise_cons.mp h
    rcases List.mem_cons.mp h1 with rfl | h1'
    · rcases List.mem_cons.mp h2 with rfl | h2'
      · rfl
      · exact absurd heq (hx.1 r2 h2')
    · rcases List.mem_cons.mp h2 with rfl | h2'
      · exact absurd heq.symm (hx.1 r1 h1')
      · exact ih hx.2 r1 h1' r2 h2' heq

/-- C1: in every lease table reachable from the empty table by the lease
operations, for every file path `p` and every time `t`, at most one row is a
live (`t < expires_at`) lease on `p` — hence at most one agent holds a live
lease on `p` at `t`. -/
theorem C1_mutual_exclusion (T : Table) (h : ReachableTable T) (p : String) (t : Nat) :
    (T.filter (fun r => r.filePath == p && decide (t < r.expiresAt))).length ≤ 1 := by
  have hpd : PathsDistinct T := reachable_paths_distinct h
  have hf : PathsDistinct
      (T.filter (fun r => r.filePath == p && decide (t < r.expiresAt))) :=
    PathsDistinct.filter _ hpd
  cases hx : T.filter (fun r => r.filePath == p && decide (t < r.expiresAt)) with
  | nil => simp
  | cons x xs =>
    cases xs with
    | nil => simp
    | cons y ys =>
      exfalso
      rw [hx] at hf
      have hxy : x.filePath ≠ y.filePath :=
        (List.pairwise_cons.mp hf).1 y (List.mem_cons_self _ _)
      have hxmem : x ∈ T.filter (fun r => r.filePath == p && decide (t < r.expiresAt)) := by
        rw [hx]
        exact List.mem_cons_self _ _
      have hymem : y ∈ T.filter (fun r => r.filePath == p && decide (t < r.expiresAt)) := by
        rw [hx]
        exact List.mem_cons_of_mem _ (List.mem_cons_self _ _)
      have hpx := (List.mem_filter.mp hxmem).2
      have hpy := (List.mem_filter.mp hymem).2
      simp only [Bool.and_eq_true, beq_iff_eq] at hpx hpy
      exact hxy (hpx.1.trans hpy.1.symm)

theorem C1_mutual_exclusion_witness :
    ((createClaim "A" ["p"] 900 0 []).2.filter
      (fun r => r.filePath == "p" && decide (0 < r.expiresAt))).length ≤ 1 :=
  C1_mutual_exclusion (createClaim "A" ["p"] 900 0 []).2
    (ReachableTable.step ReachableTable.empty (StepTable.create "A" ["p"] 900 0)) "p" 0

/-- C5: in a reachable table, if agent `a` currently holds a live lease on
path `p`, then `createClaim a [p] ttl` at time `t` reports no conflict and
replaces the lease: the table now holds the row
`(a, p, t + max(5, ttl) * 1000, t)` and no other row on `p`. -/
theorem C5_self_renewal (T : Table) (h : ReachableTable T) (a p : String) (ttl t : Nat)
    (hlive : ∃ r ∈ T, r.agentId = a ∧ r.filePath = p ∧ t < r.expiresAt) :
    (createClaim a [p] ttl t T).1.2 = [] ∧
    (⟨a, p, t + Nat.max 5 ttl * 1000, t⟩ : ClaimRow) ∈ (createClaim a [p] ttl t T).2 ∧
    (∀ r ∈ (createClaim a [p] ttl t T).2, r.filePath = p →
      r = ⟨a, p, t + Nat.max 5 ttl * 1000, t⟩) := by
  obtain ⟨r0, hr0, ha0, hp0, hl0⟩ := hlive
  have hpd := reachable_paths_distinct h
  have huniq := pathsDistinct_unique hpd
  have hcnil : findConflicts a [p] t (pruneExpiredClaims t T) = [] := by
    cases hx : findConflicts a [p] t (pruneExpiredClaims t T) with
    | nil => rfl
    | cons y ys =>
      exfalso
      have hy : y ∈ findConflicts a [p] t (pruneExpiredClaims t T) := by
        rw [hx]
        exact List.mem_cons_self _ _
      obtain ⟨rc, hrc, hid, hya, hlc, hpc⟩ := mem_findConflicts.mp hy
      have hpc' : rc.filePath = p := by simpa using hpc
      have hceq : rc = r0 :=
        huniq rc (mem_pruneExpiredClaims.mp hrc).1 r0 hr0 (hpc'.trans hp0.symm)
      apply hya
      rw [← hid, hceq, ha0]
  have hcem : (findConflicts a [p] t (pruneExpiredClaims t T)).isEmpty = true := by
    rw [hcnil]
    rfl
  have htab : (createClaim a [p] ttl t T).2 =
      upsertRow ⟨a, p, t + Nat.max 5 ttl * 1000, t⟩ (pruneExpiredClaims t T) := by
    simp [createClaim, hcem]
  have hres : (createClaim a [p] ttl t T).1.2 = [] := by
    simp [createClaim, hcem]
  refine ⟨hres, ?_, ?_⟩
  · rw [htab]
    exact mem_upsertRow.mpr (Or.inr rfl)
  · intro r hr hrp
    rw [htab] at hr
    rcases mem_upsertRow.mp hr with ⟨hin, hkey⟩ | rfl
    · exfalso
      have hrT := (mem_pruneExpiredClaims.mp hin).1
      have hreq : r = r0 := huniq r hrT r0 hr0 (hrp.trans hp0.symm)
      exact hkey ⟨by rw [hreq, ha0], hrp⟩
    · rfl

theorem C5_self_renewal_witness :
    (∃ r ∈ (createClaim "A" ["p"] 900 0 []).2,
      r.agentId = "A" ∧ r.filePath = "p" ∧ 5 < r.expiresAt) ∧
    (createClaim "A" ["p"] 600 5 (createClaim "A" ["p"] 900 0 []).2).1.2 = [] :=
  ⟨by decide,
   (C5_self_renewal (createClaim "A" ["p"] 900 0 []).2
     (ReachableTable.step ReachableTable.empty (StepTable.create "A" ["p"] 900 0))
     "A" "p" 600 5 (by decide)).1⟩

/-! ### C8: shape of the aggregate claims returned by listActiveClaims -/

/-- Correctness of one aggregate claim `c` relative to the processed rows
`done`: its file list is exactly the paths of `c.agentId`'s rows (in order),
its `expiresAt` the max and its `createdAt` the min over those rows. -/
def EntryOK (done : List ClaimRow) (c : Claim) : Prop :=
  c.files = (done.filter (fun r => r.agentId == c.agentId)).map (fun r => r.filePath) ∧
  (∃ r ∈ done, r.agentId = c.agentId ∧ r.expiresAt = c.expiresAt) ∧
  (∀ r ∈ done, r.agentId = c.agentId → r.expiresAt ≤ c.expiresAt) ∧
  (∃ r ∈ done, r.agentId = c.agentId ∧ r.createdAt = c.createdAt) ∧
  (∀ r ∈ done, r.agentId = c.agentId → c.createdAt ≤ r.createdAt)

/-- Correctness of a whole accumulator of aggregate claims relative to the
processed rows: one entry per agent occurring in the rows, each entry
correct. -/
def GroupOK (done : List ClaimRow) (acc : List Claim) : Prop :=
  (acc.map (fun c => c.agentId)).Nodup ∧
  (∀ a, (∃ c ∈ acc, c.agentId = a) ↔ ∃ r ∈ done, r.agentId = a) ∧
  (∀ c ∈ acc, EntryOK done c)

theorem updateEntry_not_found {r : ClaimRow} {cs : List Claim}
    (h : ∀ c ∈ cs, c.agentId ≠ r.agentId) :
    updateEntry r cs = cs ++ [⟨r.agentId, [r.filePath], r.expiresAt, r.createdAt⟩] := by
  induction cs with
  | nil => rfl
  | cons c cs ih =>
    have hc : ¬ (c.agentId == r.agentId) = true := by
      simp [h c (List.mem_cons_self _ _)]
    rw [updateEntry, if_neg hc, ih (fun d hd => h d (List.mem_cons_of_mem _ hd))]
    rfl

theorem updateEntry_map_agentId (r : ClaimRow) (cs : List Claim) :
    (updateEntry r cs).map (fun c => c.agentId) =
      if ∃ c ∈ cs, c.agentId = r.agentId then cs.map (fun c => c.agentId)
      else cs.map (fun c => c.agentId) ++ [r.agentId] := by
  induction cs with
  | nil => simp [updateEntry]
  | cons c cs ih =>
    by_cases hc : c.agentId = r.agentId
    · rw [updateEntry, if_pos (by simp [hc])]
      rw [if_pos ⟨c, List.mem_cons_self _ _, hc⟩]
      rfl
    · rw [updateEntry, if_neg (by simp [hc])]
      by_cases hex : ∃ d ∈ cs, d.agentId = r.agentId
      · rw [if_pos (by
          obtain ⟨d, hd, hda⟩ := hex
          exact ⟨d, List.mem_cons_of_mem _ hd, hda⟩)]
        simp only [List.map_cons]
        rw [ih, if_pos hex]
      · rw [if_neg (by
          rintro ⟨d, hd, hda⟩
          rcases List.mem_cons.mp hd with rfl | hd'
          · exact hc hda
          · exact hex ⟨d, hd', hda⟩)]
        simp only [List.map_cons]
        rw [ih, if_neg hex]
        rfl

theorem updateEntry_found_mem {r : ClaimRow} {cs : List Claim}
    (hnd : (cs.map (fun c => c.agentId)).Nodup) {c' : Claim}
    (h : c' ∈ updateEntry r cs) :
    (c' ∈ cs ∧ c'.agentId ≠ r.agentId) ∨
    (∃ c0 ∈ cs, c0.agentId = r.agentId ∧
      c' = ⟨c0.agentId, c0.files ++ [r.filePath], Nat.max c0.expiresAt r.expiresAt,
            Nat.min c0.createdAt r.createdAt⟩) ∨
    (c' = ⟨r.agentId, [r.filePath], r.expiresAt, r.createdAt⟩ ∧
      ∀ c0 ∈ cs, c0.agentId ≠ r.agentId) := by
  induction cs with
  | nil =>
    rw [updateEntry] at h
    rcases List.mem_singleton.mp h with rfl
    exact Or.inr (Or.inr (by simp))
  | cons c cs ih =>
    rw [List.map_cons, List.nodup_cons] at hnd
    by_cases hc : c.agentId = r.agentId
    · rw [updateEntry, if_pos (by simp [hc])] at h
      rcases List.mem_cons.mp h with rfl | h'
      · exact Or.inr (Or.inl ⟨c, List.mem_cons_self _ _, hc, rfl⟩)
      · refine Or.inl ⟨List.mem_cons_of_mem _ h', ?_⟩
        intro hca
        exact hnd.1 (List.mem_map.mpr ⟨c', h', hca.trans hc.symm⟩)
    · rw [updateEntry, if_neg (by simp [hc])] at h
      rcases List.mem_cons.mp h with rfl | h'
      · exact Or.inl ⟨List.mem_cons_self _ _, hc⟩
      · rcases ih hnd.2 h' with ⟨hin, hne⟩ | ⟨c0, hc0, hc0a, hval⟩ | ⟨hval, hall⟩
        · exact Or.inl ⟨List.mem_cons_of_mem _ hin, hne⟩
        · exact Or.inr (Or.inl ⟨c0, List.mem_cons_of_mem _ hc0, hc0a, hval⟩)
        · refine Or.inr (Or.inr ⟨hval, ?_⟩)
          intro c0 hc0
          rcases List.mem_cons.mp hc0 with rfl | hc0'
          · exact hc
          · exact hall c0 hc0'

theorem updateEntry_mem_of_ne {r : ClaimRow} {cs : List Claim} {c' : Claim}
    (h : c' ∈ cs) (hne : c'.agentId ≠ r.agentId) :
    c' ∈ updateEntry r cs := by
  induction cs with
  | nil => exact absurd h (List.not_mem_nil _)
  | cons c cs ih =>
    by_cases hc : c.agentId = r.agentId
    · rw [updateEntry, if_pos (by simp [hc])]
      rcases List.mem_cons.mp h with rfl | h'
      · exact absurd hc hne
      · exact List.mem_cons_of_mem _ h'
    · rw [updateEntry, if_neg (by simp [hc])]
      rcases List.mem_cons.mp h with rfl | h'
      · exact List.mem_cons_self _ _
      · exact List.mem_cons_of_mem _ (ih h')

theorem EntryOK_snoc_ne {done : List ClaimRow} {r : ClaimRow} {c : Claim}
    (he : EntryOK done c) (hne : c.agentId ≠ r.agentId) :
    EntryOK (done ++ [r]) c := by
  obtain ⟨hfiles, hemax, hbmax, hemin, hbmin⟩ := he
  have hrb : (r.agentId == c.agentId) = false := by
    simp
    exact fun hh => hne hh.symm
  refine ⟨?_, ?_, ?_, ?_, ?_⟩
  · rw [List.filter_append]
    simp [hrb, hfiles]
  · obtain ⟨q, hq, hqa, hqe⟩ := hemax
    exact ⟨q, List.mem_append_left _ hq, hqa, hqe⟩
  · intro q hq hqa
    rcases List.mem_append.mp hq with hq' | hq'
    · exact hbmax q hq' hqa
    · rcases List.mem_singleton.mp hq' with rfl
      exact absurd hqa.symm hne
  · obtain ⟨q, hq, hqa, hqe⟩ := hemin
    exact ⟨q, List.mem_append_left _ hq, hqa, hqe⟩
  · intro q hq hqa
    rcases List.mem_append.mp hq with hq' | hq'
    · exact hbmin q hq' hqa
    · rcases List.mem_singleton.mp hq' with rfl
      exact absurd hqa.symm hne

theorem EntryOK_snoc_eq {done : List ClaimRow} {r : ClaimRow} {c0 : Claim}
    (he : EntryOK done c0) (heq : c0.agentId = r.agentId) :
    EntryOK (done ++ [r])
      ⟨c0.agentId, c0.files ++ [r.filePath], Nat.max c0.expiresAt r.expiresAt,
        Nat.min c0.createdAt r.createdAt⟩ := by
  obtain ⟨hfiles, hemax, hbmax, hemin, hbmin⟩ := he
  have hrb : (r.agentId == c0.agentId) = true := by simp [heq.symm]
  refine ⟨?_, ?_, ?_, ?_, ?_⟩
  · rw [List.filter_append]
    simp only [List.filter_cons, List.filter_nil, hrb]
    rw [List.map_append]
    simp [hfiles]
  · rcases Nat.le_total r.expiresAt c0.expiresAt with hle | hle
    · obtain ⟨q, hq, hqa, hqe⟩ := hemax
      exact ⟨q, List.mem_append_left _ hq, hqa,
        by rw [hqe]; exact (Nat.max_eq_left hle).symm⟩
    · exact ⟨r, List.mem_append_right _ (List.mem_singleton_self _), heq.symm,
        (Nat.max_eq_right hle).symm⟩
  · intro q hq hqa
    rcases List.mem_append.mp hq with hq' | hq'
    · exact le_trans (hbmax q hq' hqa) (Nat.le_max_left _ _)
    · rcases List.mem_singleton.mp hq' with rfl
      exact Nat.le_max_right _ _
  · rcases Nat.le_total c0.createdAt r.createdAt with hle | hle
    · obtain ⟨q, hq, hqa, hqe⟩ := hemin
      exact ⟨q, List.mem_append_left _ hq, hqa,
        by rw [hqe]; exact (Nat.min_eq_left hle).symm⟩
    · exact ⟨r, List.mem_append_right _ (List.mem_singleton_self _), heq.symm,
        (Nat.min_eq_right hle).symm⟩
  · intro q hq hqa
    rcases List.mem_append.mp hq with hq' | hq'
    · exact le_trans (Nat.min_le_left _ _) (hbmin q hq' hqa)
    · rcases List.mem_singleton.mp hq' with rfl
      exact Nat.min_le_right _ _

theorem EntryOK_snoc_new {done : List ClaimRow} {r : ClaimRow}
    (hnone : ∀ q ∈ done, q.agentId ≠ r.agentId) :
    EntryOK (done ++ [r]) ⟨r.agentId, [r.filePath], r.expiresAt, r.createdAt⟩ := by
  have hfil : done.filter (fun q => q.agentId == r.agentId) = [] := by
    rw [List.filter_eq_nil_iff]
    intro q hq
    simp [hnone q hq]
  refine ⟨?_, ?_, ?_, ?_, ?_⟩
  · rw [List.filter_append]
    simp [hfil]
  · exact ⟨r, List.mem_append_right _ (List.mem_singleton_self _), rfl, rfl⟩
  · intro q hq hqa
    rcases List.mem_append.mp hq with hq' | hq'
    · exact absurd hqa (hnone q hq')
    · rcases List.mem_singleton.mp hq' with rfl
      exact le_refl _
  · exact ⟨r, List.mem_append_right _ (List.mem_singleton_self _), rfl, rfl⟩
  · intro q hq hqa
    rcases List.mem_append.mp hq with hq' | hq'
    · exact absurd hqa (hnone q hq')
    · rcases List.mem_singleton.mp hq' with rfl
      exact le_refl _

theorem GroupOK_updateEntry {done : List ClaimRow} {acc : List Claim} {r : ClaimRow}
    (h : GroupOK done acc) : GroupOK (done ++ [r]) (updateEntry r acc) := by
  obtain ⟨hnd, hiff, hent⟩ := h
  by_cases hex : ∃ c ∈ acc, c.agentId = r.agentId
  · have hmap : (updateEntry r acc).map (fun c => c.agentId) =
        acc.map (fun c => c.agentId) := by
      rw [updateEntry_map_agentId, if_pos hex]
    refine ⟨by rw [hmap]; exact hnd, ?_, ?_⟩
    · intro b
      have ha : (∃ c ∈ updateEntry r acc, c.agentId = b) ↔ (∃ c ∈ acc, c.agentId = b) := by
        constructor
        · rintro ⟨c, hc, rfl⟩
          have : c.agentId ∈ (updateEntry r acc).map (fun c => c.agentId) :=
            List.mem_map.mpr ⟨c, hc, rfl⟩
          rw [hmap] at this
          obtain ⟨d, hd, hda⟩ := List.mem_map.mp this
          exact ⟨d, hd, hda⟩
        · rintro ⟨c, hc, rfl⟩
          have : c.agentId ∈ (updateEntry r acc).map (fun c => c.agentId) := by
            rw [hmap]
            exact List.mem_map.mpr ⟨c, hc, rfl⟩
          obtain ⟨d, hd, hda⟩ := List.mem_map.mp this
          exact ⟨d, hd, hda⟩
      rw [ha, hiff b]
      constructor
      · rintro ⟨q, hq, hqa⟩
        exact ⟨q, List.mem_append_left _ hq, hqa⟩
      · rintro ⟨q, hq, hqa⟩
        rcases List.mem_append.mp hq with hq' | hq'
        · exact ⟨q, hq', hqa⟩
        · rcases List.mem_singleton.mp hq' with rfl
          exact (hiff b).mp (by rw [← hqa]; exact hex)
    · intro c' hc'
      rcases updateEntry_found_mem hnd hc' with ⟨hin, hne⟩ | ⟨c0, hc0, hc0a, rfl⟩ |
        ⟨rfl, hall⟩
      · exact EntryOK_snoc_ne (hent c' hin) hne
      · exact EntryOK_snoc_eq (hent c0 hc0) hc0a
      · exfalso
        obtain ⟨c, hc, hca⟩ := hex
        exact hall c hc hca
  · have hnotin : ∀ c ∈ acc, c.agentId ≠ r.agentId := by
      intro c hc hca
      exact hex ⟨c, hc, hca⟩
    have hnodone : ∀ q ∈ done, q.agentId ≠ r.agentId := by
      intro q hq hqa
      obtain ⟨c, hc, hca⟩ := (hiff r.agentId).mpr ⟨q, hq, hqa⟩
      exact hnotin c hc hca
    rw [updateEntry_not_found hnotin]
    refine ⟨?_, ?_, ?_⟩
    · rw [List.map_append, List.nodup_append]
      refine ⟨hnd, List.nodup_singleton _, ?_⟩
      intro b hb hb'
      rcases List.mem_singleton.mp hb' with rfl
      obtain ⟨c, hc, hca⟩ := List.mem_map.mp hb
      exact hnotin c hc hca
    · intro b
      constructor
      · rintro ⟨c, hc, rfl⟩
        rcases List.mem_append.mp hc with hc' | hc'
        · obtain ⟨q, hq, hqa⟩ := (hiff c.agentId).mp ⟨c, hc', rfl⟩
          exact ⟨q, List.mem_append_left _ hq, hqa⟩
        · rcases List.mem_singleton.mp hc' with rfl
          exact ⟨r, List.mem_append_right _ (List.mem_singleton_self _), rfl⟩
      · rintro ⟨q, hq, hqa⟩
        rcases List.mem_append.mp hq with hq' | hq'
        · obtain ⟨c, hc, hca⟩ := (hiff b).mpr ⟨q, hq', hqa⟩
          exact ⟨c, List.mem_append_left _ hc, hca⟩
        · rcases List.mem_singleton.mp hq' with rfl
          exact ⟨_, List.mem_append_right _ (List.mem_singleton_self _), hqa⟩
    · intro c' hc'
      rcases List.mem_append.mp hc' with hc'' | hc''
      · exact EntryOK_snoc_ne (hent c' hc'') (hnotin c' hc'')
      · rcases List.mem_singleton.mp hc'' with rfl
        exact EntryOK_snoc_new hnodone

theorem GroupOK_foldl :
    ∀ (rows done : List ClaimRow) (acc : List Claim), GroupOK done acc →
      GroupOK (done ++ rows) (rows.foldl (fun acc r => updateEntry r acc) acc) := by
  intro rows
  induction rows with
  | nil =>
    intro done acc h
    simpa using h
  | cons r rows ih =>
    intro done acc h
    simp only [List.foldl_cons]
    have hstep := ih (done ++ [r]) (updateEntry r acc) (GroupOK_updateEntry h)
    simpa [List.append_assoc] using hstep

theorem groupClaims_ok (rows : List ClaimRow) : GroupOK rows (groupClaims rows) := by
  have h0 : GroupOK [] ([] : List Claim) := by
    refine ⟨List.nodup_nil, ?_, ?_⟩ <;> simp
  have := GroupOK_foldl rows [] [] h0
  simpa [groupClaims] using this

/-- C8: `listActiveClaims` returns exactly one aggregate claim per agent with
at least one remaining (live) lease row — the returned agent ids are
duplicate-free and are exactly the agents with rows surviving the sweep — and
each claim's `files` are exactly the paths that agent leases, its `expiresAt`
is the maximum `expires_at` (attained, and an upper bound) and its
`createdAt` the minimum `created_at` (attained, and a lower bound) over that
agent's rows. -/
theorem C8_aggregate_shape (t : Nat) (T : Table) :
    (((listActiveClaims t T).1.map (fun c => c.agentId)).Nodup) ∧
    (∀ a, (∃ c ∈ (listActiveClaims t T).1, c.agentId = a) ↔
      ∃ r ∈ pruneExpiredClaims t T, r.agentId = a) ∧
    (∀ c ∈ (listActiveClaims t T).1,
      (∀ p, p ∈ c.files ↔
        ∃ r ∈ pruneExpiredClaims t T, r.agentId = c.agentId ∧ r.filePath = p) ∧
      (∃ r ∈ pruneExpiredClaims t T, r.agentId = c.agentId ∧ r.expiresAt = c.expiresAt) ∧
      (∀ r ∈ pruneExpiredClaims t T, r.agentId = c.agentId → r.expiresAt ≤ c.expiresAt) ∧
      (∃ r ∈ pruneExpiredClaims t T, r.agentId = c.agentId ∧ r.createdAt = c.createdAt) ∧
      (∀ r ∈ pruneExpiredClaims t T, r.agentId = c.agentId → c.createdAt ≤ r.createdAt)) := by
  have hperm : List.Perm
      ((pruneExpiredClaims t T).insertionSort (fun a b => b.createdAt ≤ a.createdAt))
      (pruneExpiredClaims t T) :=
    List.perm_insertionSort _ _
  have hok := groupClaims_ok
    ((pruneExpiredClaims t T).insertionSort (fun a b => b.createdAt ≤ a.createdAt))
  obtain ⟨hnd, hiff, hent⟩ := hok
  have hout : (listActiveClaims t T).1 =
      groupClaims
        ((pruneExpiredClaims t T).insertionSort (fun a b => b.createdAt ≤ a.createdAt)) :=
    rfl
  refine ⟨by rw [hout]; exact hnd, ?_, ?_⟩
  · intro a
    rw [hout, hiff a]
    constructor
    · rintro ⟨q, hq, hqa⟩
      exact ⟨q, hperm.mem_iff.mp hq, hqa⟩
    · rintro ⟨q, hq, hqa⟩
      exact ⟨q, hperm.mem_iff.mpr hq, hqa⟩
  · intro c hc
    rw [hout] at hc
    obtain ⟨hfiles, hemax, hbmax, hemin, hbmin⟩ := hent c hc
    refine ⟨?_, ?_, ?_, ?_, ?_⟩
    · intro p
      rw [hfiles]
      simp only [List.mem_map, List.mem_filter, beq_iff_eq]
      constructor
      · rintro ⟨q, ⟨hq, hqa⟩, rfl⟩
        exact ⟨q, hperm.mem_iff.mp hq, hqa, rfl⟩
      · rintro ⟨q, hq, hqa, rfl⟩
        exact ⟨q, ⟨hperm.mem_iff.mpr hq, hqa⟩, rfl⟩
    · obtain ⟨q, hq, hqa, hqe⟩ := hemax
      exact ⟨q, hperm.mem_iff.mp hq, hqa, hqe⟩
    · intro q hq hqa
      exact hbmax q (hperm.mem_iff.mpr hq) hqa
    · obtain ⟨q, hq, hqa, hqe⟩ := hemin
      exact ⟨q, hperm.mem_iff.mp hq, hqa, hqe⟩
    · intro q hq hqa
      exact hbmin q (hperm.mem_iff.mpr hq) hqa

theorem C8_aggregate_shape_witness :
    (⟨"A", ["p", "q"], 900000, 3⟩ : Claim) ∈
      (listActiveClaims 0 [⟨"A", "p", 900000, 5⟩, ⟨"A", "q", 800000, 3⟩]).1 ∧
    ("q" ∈ (⟨"A", ["p", "q"], 900000, 3⟩ : Claim).files ↔
      ∃ r ∈ pruneExpiredClaims 0 [⟨"A", "p", 900000, 5⟩, ⟨"A", "q", 800000, 3⟩],
        r.agentId = (⟨"A", ["p", "q"], 900000, 3⟩ : Claim).agentId ∧ r.filePath = "q") :=
  ⟨by decide,
   ((C8_aggregate_shape 0 [⟨"A", "p", 900000, 5⟩, ⟨"A", "q", 800000, 3⟩]).2.2
     ⟨"A", ["p", "q"], 900000, 3⟩ (by decide)).1 "q"⟩

end Hall
